import Mathlib

/-!
Shallow embedding of the Incremental ETL & Cross-Source Entity Resolution
Engine (app/ingestion, app/services/etl_service.py,
app/services/asset_service.py).

Conventions of the embedding:
* `datetime` values become `Nat` (provider timestamps are totally ordered);
  an optional timestamp is `Option Nat`.
* Python string methods `.upper()/.lower()/.strip()/.split()` are modelled
  by explicit character-list functions (`pyUpper`, `pyLower`, ...), which
  agree with CPython on ASCII data.
* A record dictionary in flight between the adapters and the ETL service
  becomes the structure `InRecord`; `payloadId` stands for
  `rec["payload"].get("id")`, the only payload field the code reads.
* Database tables become Lean lists kept in query order: `find?` models
  `.first()`, `filter` models `.all()` on a filtered query, and an
  update of a row loaded by primary key becomes a positional `map`.
* Fallible steps return `Option`/`Except`; a `none`/`.error` result models
  a raised Python exception.
-/

/-- Characterization of Python truthiness for `Optional[str]` values: `None` and
the empty string are falsy. -/
def truthy (s : Option String) : Bool :=
  match s with
  | none => false
  | some v => !v.data.isEmpty

/-- Python `str.lower()` (ASCII). -/
def pyLower (s : String) : String :=
  String.mk (s.data.map Char.toLower)

/-- Python `str.upper()` (ASCII). -/
def pyUpper (s : String) : String :=
  String.mk (s.data.map Char.toUpper)

/-- Python `str.strip()`: remove leading and trailing whitespace. -/
def pyStrip (s : String) : String :=
  String.mk (((s.data.dropWhile Char.isWhitespace).reverse.dropWhile Char.isWhitespace).reverse)

/-- Helper for Python `str.split()` with no argument: accumulate maximal
runs of non-whitespace characters, dropping empty fragments. -/
def wordsAux : List Char → List Char → List String
  | [], acc => if acc.isEmpty then [] else [String.mk acc.reverse]
  | c :: cs, acc =>
    if c.isWhitespace then
      if acc.isEmpty then wordsAux cs [] else String.mk acc.reverse :: wordsAux cs []
    else wordsAux cs (c :: acc)

/-- Python `str.split()` with no argument. -/
def pyWords (s : String) : List String :=
  wordsAux s.data []

/-- Python `str.replace(' ', '-')` (single-character replacement). -/
def pyReplaceSpaceDash (s : String) : String :=
  String.mk (s.data.map (fun c => if c = ' ' then '-' else c))

/-- An in-flight record produced by a source adapter: the uniform dictionary
`{payload, symbol, name, price_usd, market_cap_usd, rank, source_updated_at}`
(see `app/ingestion/api_source.py` and friends). Numeric fields are already
numeric-or-`None` when they reach the ETL service, so they are carried as
`Option Rat`/`Option Int`. -/
structure InRecord where
  symbol : Option String
  name : Option String
  price_usd : Option Rat
  market_cap_usd : Option Rat
  rank : Option Int
  source_updated_at : Option Nat
  payloadId : Option String
deriving DecidableEq

/-- Embedding of `BaseSource.filter_incremental` (`app/ingestion/base.py`):
with no checkpoint every record passes through; with a checkpoint only
records carrying a timestamp strictly greater than it are kept. It is a
pure function of its two arguments (the code is a `@staticmethod` that
touches no other state). -/
def filter_incremental (records : List InRecord) (checkpoint : Option Nat) : List InRecord :=
  match checkpoint with
  | none => records
  | some cp =>
    records.filter (fun rec =>
      match rec.source_updated_at with
      | some ts => decide (cp < ts)
      | none => false)

/-- A row of `normalized_crypto_assets` as produced by `ETLService._normalize`,
before the upsert adds `ingested_at` (`app/services/etl_service.py`). -/
structure NormRow where
  asset_uid : String
  symbol : String
  name : String
  price_usd : Option Rat
  market_cap_usd : Option Rat
  rank : Option Int
  source : String
  source_updated_at : Option Nat
deriving DecidableEq

/-- Embedding of `ETLService._safe_float` restricted to the numeric-or-absent
values the adapters actually supply (`float` of a float is the identity). -/
def _safe_float (value : Option Rat) : Option Rat :=
  match value with
  | none => none
  | some v => some v

/-- Embedding of `ETLService._safe_int` under the same restriction. -/
def _safe_int (value : Option Int) : Option Int :=
  match value with
  | none => none
  | some v => some v

/-- The per-record part of `ETLService._normalize`: drop the record when the
symbol is missing or empty, otherwise build the normalized payload with
`asset_uid = symbol.upper().lower()` and `name or symbol` fallback. -/
def normalizeRecord (source : String) (rec : InRecord) : Option NormRow :=
  let symbol := pyUpper (rec.symbol.getD "")
  if symbol.data.isEmpty then none
  else
    let asset_uid := pyLower symbol
    let name := rec.name.getD ""
    some {
      asset_uid := asset_uid
      symbol := symbol
      name := if name.data.isEmpty then symbol else name
      price_usd := _safe_float rec.price_usd
      market_cap_usd := _safe_float rec.market_cap_usd
      rank := _safe_int rec.rank
      source := source
      source_updated_at := rec.source_updated_at }

/-- The replacement test of the dedup pass in `_normalize`:
`incoming_ts and (not existing_ts or incoming_ts > existing_ts)` —
a record wins over the stored one only when it carries a timestamp and the
stored one is absent or strictly older. -/
def tsDominates (incoming existing : Option Nat) : Bool :=
  match incoming, existing with
  | none, _ => false
  | some _, none => true
  | some i, some e => decide (e < i)

/-- One step of the `dedup` dictionary update inside `_normalize`: Python
dict semantics — an absent key is appended, a replaced key keeps its
position. -/
def dedupStep (acc : List (String × NormRow)) (p : NormRow) : List (String × NormRow) :=
  match acc.find? (fun q => q.1 = p.asset_uid) with
  | none => acc ++ [(p.asset_uid, p)]
  | some q =>
    if tsDominates p.source_updated_at q.2.source_updated_at then
      acc.map (fun e => if e.1 = p.asset_uid then (e.1, p) else e)
    else acc

/-- Embedding of `ETLService._normalize`: normalize each record (dropping
symbol-less ones) and deduplicate by `asset_uid`, keeping the freshest
record per uid; the output is `list(dedup.values())`. -/
def _normalize (records : List InRecord) (source : String) : List NormRow :=
  (((records.filterMap (normalizeRecord source)).foldl dedupStep []).map (fun e => e.2))

/-- A stored row of `normalized_crypto_assets` (`app/models/normalized.py`):
the normalized fields plus the `coingecko_id`/`coinpaprika_id` traceability
columns (not touched by the upsert's `SET` clause) and `ingested_at`. -/
structure CanonRow where
  asset_uid : String
  symbol : String
  name : String
  price_usd : Option Rat
  market_cap_usd : Option Rat
  rank : Option Int
  source : String
  source_updated_at : Option Nat
  coingecko_id : Option String
  coinpaprika_id : Option String
  ingested_at : Nat
deriving DecidableEq

/-- One `INSERT ... ON CONFLICT (asset_uid) DO UPDATE` row of
`ETLService._upsert_normalized`: on conflict every mutable field is
overwritten from the incoming row and `ingested_at` is set to now; the
traceability columns are absent from the `SET` clause and keep their stored
values. -/
def upsertRow (now : Nat) (table : List CanonRow) (r : NormRow) : List CanonRow :=
  if table.any (fun c => c.asset_uid = r.asset_uid) then
    table.map (fun c =>
      if c.asset_uid = r.asset_uid then
        { c with
          symbol := r.symbol
          name := r.name
          price_usd := r.price_usd
          market_cap_usd := r.market_cap_usd
          rank := r.rank
          source := r.source
          source_updated_at := r.source_updated_at
          ingested_at := now }
      else c)
  else
    table ++ [{
      asset_uid := r.asset_uid
      symbol := r.symbol
      name := r.name
      price_usd := r.price_usd
      market_cap_usd := r.market_cap_usd
      rank := r.rank
      source := r.source
      source_updated_at := r.source_updated_at
      coingecko_id := none
      coinpaprika_id := none
      ingested_at := now }]

/-- Embedding of `ETLService._upsert_normalized` on a batch whose rows carry
distinct `asset_uid`s (guaranteed by `_normalize`'s dedup dictionary and
required by PostgreSQL's `ON CONFLICT DO UPDATE`): the multi-row statement
acts as the left-to-right fold of the single-row upsert. -/
def _upsert_normalized (now : Nat) (table : List CanonRow) (rows : List NormRow) : List CanonRow :=
  rows.foldl (upsertRow now) table

/-- Embedding of `ETLService._advance_checkpoint`'s
`max(rec["source_updated_at"] for rec in records)`: `none` models the
exception path — the `TypeError` Python raises when a `None` timestamp meets
a comparison (or, for a lone `None`, the not-null violation its assignment
causes at commit), and the `max()` of an empty batch. -/
def batchMaxTs : List InRecord → Option Nat
  | [] => none
  | [r] => r.source_updated_at
  | r :: rest =>
    match r.source_updated_at, batchMaxTs rest with
    | some t, some m => some (max t m)
    | _, _ => none

/-- The checkpoint outcome of one `ETLService.run` invocation
(`app/services/etl_service.py`): an empty incremental batch short-circuits
to success without touching the checkpoint; otherwise the checkpoint is set
to the maximum timestamp of the fetched (pre-dedup) batch. The outer
`Option` is the success of the run: `none` models the run failing (and
rolling back) before the checkpoint write commits. -/
def checkpointAfterRun (cp : Option Nat) (fetched : List InRecord) : Option (Option Nat) :=
  let fresh := filter_incremental fetched cp
  if fresh.isEmpty then some cp
  else
    match batchMaxTs fresh with
    | some newest => some (some newest)
    | none => none

/-- A row of the `asset_mappings` canonical identity table
(`app/models/asset_mapping.py`), in query order. -/
structure Mapping where
  asset_uid : String
  coingecko_id : Option String
  coinpaprika_id : Option String
  symbol : String
  name : String
deriving DecidableEq

/-- The slice of a raw provider payload that `resolve` reads:
`payload.get("id")`. -/
structure Payload where
  id : Option String
deriving DecidableEq

/-- Embedding of `AssetUnificationService._normalize_name`: lowercase, strip
punctuation (keep ASCII alphanumerics and whitespace), collapse whitespace. -/
def normalize_name (name : String) : String :=
  let lowered := pyLower name
  let stripped := String.mk (lowered.data.filter (fun c => c.isAlphanum || c.isWhitespace))
  String.intercalate " " (pyWords stripped)

/-- The provider-specific IDs `resolve` extracts from the payload:
`payload.get("id")` lands in the column of the record's own source. -/
def extractIds (source : String) (payload : Option Payload) : Option String × Option String :=
  match payload with
  | none => (none, none)
  | some p =>
    if source = "coingecko" then (p.id, none)
    else if source = "coinpaprika" then (none, p.id)
    else (none, none)

/-- Embedding of `AssetUnificationService._lookup_by_source_id`: first-match
query by `coingecko_id`, then by `coinpaprika_id`; a falsy (absent or empty)
incoming ID skips its branch. -/
def lookup_by_source_id (db : List Mapping) (cg cp : Option String) : Option String :=
  match (if truthy cg then db.find? (fun m => m.coingecko_id = cg) else none) with
  | some m => some m.asset_uid
  | none =>
    match (if truthy cp then db.find? (fun m => m.coinpaprika_id = cp) else none) with
    | some m => some m.asset_uid
    | none => none

/-- Embedding of `AssetUnificationService._lookup_by_symbol_name`: collect the
mappings with the normalized symbol; a unique hit wins, several hits prefer
an exact normalized-name match and otherwise fall back to the first
candidate. -/
def lookup_by_symbol_name (db : List Mapping) (symbol name : String) : Option String :=
  let normalized_symbol := pyStrip (pyUpper symbol)
  let normalized_name := normalize_name name
  let mappings := db.filter (fun m => m.symbol = normalized_symbol)
  match mappings with
  | [] => none
  | [m] => some m.asset_uid
  | m :: _ :: _ =>
    match mappings.find? (fun mm => normalize_name mm.name = normalized_name) with
    | some mm => some mm.asset_uid
    | none => some m.asset_uid

/-- Embedding of `AssetUnificationService._generate_canonical_id`: prefer the
lowercased provider ID, else the dash-joined slug of the normalized name,
else the lowercased symbol. -/
def generate_canonical_id (cg cp : Option String) (symbol name : String) : String :=
  if truthy cg then pyLower (cg.getD "")
  else if truthy cp then pyLower (cp.getD "")
  else
    let canonical := pyReplaceSpaceDash (normalize_name name)
    if canonical.data.isEmpty then pyLower symbol else canonical

/-- The per-row effect of `_update_mapping_source_id` on the mapping loaded by
primary key: fill in a missing (falsy) provider ID from a truthy incoming
one, never touching a populated column. -/
def enrichOne (asset_uid : String) (cg cp : Option String) (m : Mapping) : Mapping :=
  if m.asset_uid = asset_uid then
    { m with
      coingecko_id := if truthy cg && !truthy m.coingecko_id then cg else m.coingecko_id
      coinpaprika_id := if truthy cp && !truthy m.coinpaprika_id then cp else m.coinpaprika_id }
  else m

/-- Embedding of `AssetUnificationService._update_mapping_source_id`: a miss
of the primary-key load leaves the table alone, otherwise the loaded row is
enriched in place. -/
def _update_mapping_source_id (db : List Mapping) (asset_uid : String) (cg cp : Option String) :
    List Mapping :=
  match db.find? (fun m => m.asset_uid = asset_uid) with
  | none => db
  | some _ => db.map (enrichOne asset_uid cg cp)

/-- Embedding of `AssetUnificationService._create_mapping`: an
`INSERT ... ON CONFLICT (asset_uid) DO UPDATE` whose `SET` clause overwrites
only the two provider-ID columns with the incoming values. -/
def _create_mapping (db : List Mapping) (asset_uid symbol name : String) (cg cp : Option String) :
    List Mapping :=
  if db.any (fun m => m.asset_uid = asset_uid) then
    db.map (fun m =>
      if m.asset_uid = asset_uid then { m with coingecko_id := cg, coinpaprika_id := cp } else m)
  else
    db ++ [{ asset_uid := asset_uid, coingecko_id := cg, coinpaprika_id := cp,
             symbol := pyUpper symbol, name := name }]

/-- Result of one `resolve` call: the returned triple plus the table and
cache as left behind. -/
structure ResolveResult where
  asset_uid : String
  coingecko_id : Option String
  coinpaprika_id : Option String
  db : List Mapping
  cache : List (String × String)
deriving DecidableEq

/-- Embedding of `AssetUnificationService.resolve`: extract the
source-specific IDs, consult the in-memory cache, then try the three
strategies in order — direct source-ID lookup, symbol/name lookup with
enrichment of the winning mapping, and synthesis of a new canonical ID with
creation of its mapping row. -/
def resolve (db : List Mapping) (cache : List (String × String))
    (source symbol name : String) (payload : Option Payload) : ResolveResult :=
  let ids := extractIds source payload
  let coingecko_id := ids.1
  let coinpaprika_id := ids.2
  let cache_key := source ++ "|" ++ pyUpper symbol ++ "|" ++ (coingecko_id.getD "") ++ "|" ++
    (coinpaprika_id.getD "")
  match cache.lookup cache_key with
  | some cached_uid =>
    { asset_uid := cached_uid, coingecko_id := coingecko_id, coinpaprika_id := coinpaprika_id,
      db := db, cache := cache }
  | none =>
    match lookup_by_source_id db coingecko_id coinpaprika_id with
    | some asset_uid =>
      { asset_uid := asset_uid, coingecko_id := coingecko_id, coinpaprika_id := coinpaprika_id,
        db := db, cache := (cache_key, asset_uid) :: cache }
    | none =>
      match lookup_by_symbol_name db symbol name with
      | some asset_uid =>
        { asset_uid := asset_uid, coingecko_id := coingecko_id, coinpaprika_id := coinpaprika_id,
          db := _update_mapping_source_id db asset_uid coingecko_id coinpaprika_id,
          cache := (cache_key, asset_uid) :: cache }
      | none =>
        let asset_uid := generate_canonical_id coingecko_id coinpaprika_id symbol name
        { asset_uid := asset_uid, coingecko_id := coingecko_id, coinpaprika_id := coinpaprika_id,
          db := _create_mapping db asset_uid symbol name coingecko_id coinpaprika_id,
          cache := (cache_key, asset_uid) :: cache }

/-- A row of `etl_runs` (`app/models/runs.py`), restricted to the fields the
claims speak about. -/
structure RunRow where
  source_name : String
  status : String
  records_processed : Nat
  error_message : Option String
deriving DecidableEq

/-- The committed database state the ETL pipeline touches: raw archive rows
(tagged with their source), the canonical asset table, the checkpoint table
and the run history. -/
structure DBState where
  raws : List (String × InRecord)
  assets : List CanonRow
  checkpoints : List (String × Nat)
  runs : List RunRow
deriving DecidableEq

/-- Update-or-insert of the per-source checkpoint row, as in
`_advance_checkpoint`. -/
def setCheckpoint (cps : List (String × Nat)) (source : String) (newest : Nat) :
    List (String × Nat) :=
  if cps.any (fun e => e.1 = source) then
    cps.map (fun e => if e.1 = source then (e.1, newest) else e)
  else cps ++ [(source, newest)]

/-- Embedding of `ETLService.run` as a transaction-level state machine. The
Run row is committed first in state `running`; the remaining steps work on
an uncommitted overlay. `fetchResult` carries a total fetch failure as
`.error`; `persistFault`/`upsertFault` inject database errors into the raw
persistence and upsert steps. On any error the overlay is rolled back, the
Run row alone is committed as a `failure` carrying the exception message,
and the error is re-raised (the `.error` of the returned pair). -/
def etlRun (db : DBState) (source : String) (fetchResult : Except String (List InRecord))
    (persistFault upsertFault : Option String) (now : Nat) : DBState × Except String Nat :=
  let committed := { db with runs := db.runs ++ [RunRow.mk source "running" 0 none] }
  let failWith := fun (e : String) =>
    ({ committed with runs := db.runs ++ [RunRow.mk source "failure" 0 (some e)] }, Except.error e)
  match fetchResult with
  | .error e => failWith e
  | .ok fetched =>
    let cp := committed.checkpoints.lookup source
    let fresh := filter_incremental fetched cp
    if fresh.isEmpty then
      ({ committed with runs := db.runs ++ [RunRow.mk source "success" 0 none] }, .ok 0)
    else
      match persistFault with
      | some e => failWith e
      | none =>
        let pending1 := { committed with raws := committed.raws ++ fresh.map (fun r => (source, r)) }
        let normalized := _normalize fresh source
        match upsertFault with
        | some e => failWith e
        | none =>
          let pending2 := { pending1 with assets := _upsert_normalized now pending1.assets normalized }
          match batchMaxTs fresh with
          | none => failWith "unorderable source_updated_at in batch"
          | some newest =>
            let pending3 :=
              { pending2 with checkpoints := setCheckpoint pending2.checkpoints source newest }
            ({ pending3 with
                runs := db.runs ++ [RunRow.mk source "success" normalized.length none] },
              .ok normalized.length)

/-! Shared helper lemmas about the normalization and upsert embeddings. -/

/-- Every normalized payload carries `asset_uid = lower(symbol)` by
construction. -/
theorem normalizeRecord_uid (source : String) (rec : InRecord) (p : NormRow)
    (h : normalizeRecord source rec = some p) : p.asset_uid = pyLower p.symbol := by
  unfold normalizeRecord at h
  by_cases hs : (pyUpper (rec.symbol.getD "")).data.isEmpty
  · simp [hs] at h
  · simp only [hs, if_false, Bool.false_eq_true, Option.some.injEq] at h
    rw [← h]

/-- Coherence of the dedup dictionary: stored values carry their key as
`asset_uid`. -/
theorem dedupStep_coherent (acc : List (String × NormRow)) (p : NormRow)
    (hco : ∀ q ∈ acc, q.2.asset_uid = q.1) :
    ∀ q ∈ dedupStep acc p, q.2.asset_uid = q.1 := by
  intro q hq
  unfold dedupStep at hq
  split at hq
  · rcases List.mem_append.1 hq with h | h
    · exact hco q h
    · simp only [List.mem_singleton] at h
      subst h; rfl
  · split at hq
    · rcases List.mem_map.1 hq with ⟨e, he, rfl⟩
      by_cases hk : e.1 = p.asset_uid
      · simp [hk]
      · simp [hk, hco e he]
    · exact hco q hq

theorem dedup_fold_coherent (ps : List NormRow) (acc : List (String × NormRow))
    (hco : ∀ q ∈ acc, q.2.asset_uid = q.1) :
    ∀ q ∈ ps.foldl dedupStep acc, q.2.asset_uid = q.1 := by
  induction ps generalizing acc with
  | nil => exact hco
  | cons p ps ih => exact ih (dedupStep acc p) (dedupStep_coherent acc p hco)

/-- Values stored in the dedup dictionary are normalized payloads from the
input (dedup only selects, never synthesizes). -/
theorem dedup_fold_values (ps : List NormRow) (acc : List (String × NormRow))
    (P : NormRow → Prop) (hacc : ∀ q ∈ acc, P q.2) (hps : ∀ p ∈ ps, P p) :
    ∀ q ∈ ps.foldl dedupStep acc, P q.2 := by
  induction ps generalizing acc with
  | nil => exact hacc
  | cons p ps ih =>
    refine ih (dedupStep acc p) ?_ (fun x hx => hps x (List.mem_cons_of_mem _ hx))
    intro q hq
    unfold dedupStep at hq
    split at hq
    · rcases List.mem_append.1 hq with h | h
      · exact hacc q h
      · simp only [List.mem_singleton] at h
        subst h; exact hps p (List.mem_cons_self _ _)
    · split at hq
      · rcases List.mem_map.1 hq with ⟨e, he, rfl⟩
        by_cases hk : e.1 = p.asset_uid
        · simpa [hk] using hps p (List.mem_cons_self _ _)
        · simpa [hk] using hacc e he
      · exact hacc q hq

/-- The dedup dictionary keeps its keys pairwise distinct, as a Python dict
does. -/
theorem dedup_fold_keys_nodup (ps : List NormRow) (acc : List (String × NormRow))
    (hnd : (acc.map (fun q => q.1)).Nodup) :
    ((ps.foldl dedupStep acc).map (fun q => q.1)).Nodup := by
  induction ps generalizing acc with
  | nil => exact hnd
  | cons p ps ih =>
    refine ih (dedupStep acc p) ?_
    unfold dedupStep
    split
    · next hfind =>
      rw [List.find?_eq_none] at hfind
      simp only [List.map_append, List.map_cons, List.map_nil]
      rw [List.nodup_append]
      refine ⟨hnd, List.nodup_singleton _, ?_⟩
      intro a ha hb
      rcases List.mem_map.1 ha with ⟨q, hq, rfl⟩
      simp only [List.mem_singleton] at hb
      exact hfind q hq (by simpa using hb)
    · split
      · have : ((acc.map fun e => if e.1 = p.asset_uid then (e.1, p) else e).map fun q => q.1)
            = acc.map fun q => q.1 := by
          rw [List.map_map]
          refine List.map_congr_left ?_
          intro e _
          by_cases hk : e.1 = p.asset_uid <;> simp [hk]
        rw [this]; exact hnd
      · exact hnd

/-- Every row `_normalize` emits is a normalized payload of some input
record. -/
theorem normalize_mem (records : List InRecord) (source : String) :
    ∀ row ∈ _normalize records source,
      ∃ rec ∈ records, normalizeRecord source rec = some row := by
  intro row hrow
  unfold _normalize at hrow
  rcases List.mem_map.1 hrow with ⟨q, hq, rfl⟩
  refine dedup_fold_values _ [] (fun v => ∃ rec ∈ records, normalizeRecord source rec = some v)
    (by simp) ?_ q hq
  intro p hp
  rcases List.mem_filterMap.1 hp with ⟨rec, hrec, hmk⟩
  exact ⟨rec, hrec, hmk⟩

/-- The `asset_uid`s emitted by `_normalize` are pairwise distinct. -/
theorem normalize_uids_nodup (records : List InRecord) (source : String) :
    ((_normalize records source).map (fun r => r.asset_uid)).Nodup := by
  unfold _normalize
  rw [List.map_map]
  have hco := dedup_fold_coherent (records.filterMap (normalizeRecord source)) [] (by simp)
  have hnd := dedup_fold_keys_nodup (records.filterMap (normalizeRecord source)) [] (by simp)
  have : ((records.filterMap (normalizeRecord source)).foldl dedupStep []).map
        ((fun r => r.asset_uid) ∘ fun e => e.2)
      = ((records.filterMap (normalizeRecord source)).foldl dedupStep []).map (fun q => q.1) := by
    refine List.map_congr_left ?_
    intro q hq
    exact hco q hq
  rw [this]; exact hnd

/-- Rows of an upsert result either survive from the stored table or carry the
uid-is-lowercased-symbol shape of the incoming batch. -/
theorem upsert_mem_shape (now : Nat) (table : List CanonRow) (rows : List NormRow)
    (hrows : ∀ r ∈ rows, r.asset_uid = pyLower r.symbol) :
    ∀ c ∈ _upsert_normalized now table rows, c ∈ table ∨ c.asset_uid = pyLower c.symbol := by
  induction rows generalizing table with
  | nil => exact fun c hc => Or.inl hc
  | cons r rs ih =>
    intro c hc
    have hr : r.asset_uid = pyLower r.symbol := hrows r (List.mem_cons_self _ _)
    have step : ∀ c ∈ upsertRow now table r, c ∈ table ∨ c.asset_uid = pyLower c.symbol := by
      intro c hc
      unfold upsertRow at hc
      split at hc
      · rcases List.mem_map.1 hc with ⟨c0, hc0, rfl⟩
        by_cases hu : c0.asset_uid = r.asset_uid
        · exact Or.inr (by simp [hu, hr])
        · simp only [hu, if_false]
          exact Or.inl hc0
      · rcases List.mem_append.1 hc with h | h
        · exact Or.inl h
        · simp only [List.mem_singleton] at h
          subst h
          exact Or.inr hr
    rcases ih (upsertRow now table r) (fun x hx => hrows x (List.mem_cons_of_mem _ hx)) c hc with
      h | h
    · exact step c h
    · exact Or.inr h

/-- C10: every record emitted by `_normalize` has `asset_uid` equal to the
lowercase of its (uppercased) symbol, the emitted batch contains at most one
record per `asset_uid`, and consequently every row an ETL upsert writes from
such a batch satisfies `asset_uid = lower(symbol)` (rows not of that shape
can only be pre-existing rows of the stored table). -/
theorem normalize_uid_is_lower_symbol (records : List InRecord) (source : String) :
    (∀ row ∈ _normalize records source, row.asset_uid = pyLower row.symbol)
    ∧ ((_normalize records source).map (fun r => r.asset_uid)).Nodup
    ∧ ∀ (now : Nat) (table : List CanonRow),
        ∀ c ∈ _upsert_normalized now table (_normalize records source),
          c ∈ table ∨ c.asset_uid = pyLower c.symbol := by
  have huid : ∀ row ∈ _normalize records source, row.asset_uid = pyLower row.symbol := by
    intro row hrow
    rcases normalize_mem records source row hrow with ⟨rec, _, hmk⟩
    exact normalizeRecord_uid source rec row hmk
  exact ⟨huid, normalize_uids_nodup records source,
    fun now table => upsert_mem_shape now table _ huid⟩

/-- C10 witness: a concrete two-source batch sharing the symbol BTC collapses
onto the single canonical uid "btc". -/
theorem normalize_uid_is_lower_symbol_witness :
    (InRecord.mk (some "BTC") (some "Bitcoin") none none none (some 5) none) ∈
        ([InRecord.mk (some "BTC") (some "Bitcoin") none none none (some 5) none,
          InRecord.mk (some "btc") (some "Bitcoin") none none none (some 3) none] : List InRecord)
    ∧ ∀ row ∈ _normalize
        [InRecord.mk (some "BTC") (some "Bitcoin") none none none (some 5) none,
         InRecord.mk (some "btc") (some "Bitcoin") none none none (some 3) none] "coingecko",
        row.asset_uid = pyLower row.symbol := by
  exact ⟨by decide,
    (normalize_uid_is_lower_symbol
      [InRecord.mk (some "BTC") (some "Bitcoin") none none none (some 5) none,
       InRecord.mk (some "btc") (some "Bitcoin") none none none (some 3) none] "coingecko").1⟩

/-- Membership characterization of the incremental filter. -/
theorem mem_filter_incremental (records : List InRecord) (T : Nat) (r : InRecord) :
    r ∈ filter_incremental records (some T) ↔
      r ∈ records ∧ ∃ t, r.source_updated_at = some t ∧ T < t := by
  unfold filter_incremental
  rw [List.mem_filter]
  constructor
  · rintro ⟨hin, hpred⟩
    refine ⟨hin, ?_⟩
    cases hts : r.source_updated_at with
    | none => rw [hts] at hpred; simp at hpred
    | some t =>
      rw [hts] at hpred
      exact ⟨t, rfl, by simpa using hpred⟩
  · rintro ⟨hin, t, hts, hlt⟩
    exact ⟨hin, by rw [hts]; simpa using hlt⟩

/-- C6: the incremental filter keeps exactly the fetched records whose
`source_updated_at` is strictly greater than the checkpoint, an absent
checkpoint keeps every record, and a record timestamped exactly at the
checkpoint is excluded. (In the code the filter is a pure `@staticmethod`
of its two arguments; the checkpoint store is neither read nor written,
which the embedding reflects by `filter_incremental` being a function.) -/
theorem filter_incremental_spec (records : List InRecord) (T : Nat) (r : InRecord) :
    (r ∈ filter_incremental records (some T) ↔
      r ∈ records ∧ ∃ t, r.source_updated_at = some t ∧ T < t)
    ∧ filter_incremental records none = records
    ∧ (r.source_updated_at = some T → r ∉ filter_incremental records (some T)) := by
  refine ⟨mem_filter_incremental records T r, rfl, ?_⟩
  intro hts hinf
  rcases ((mem_filter_incremental records T r).1 hinf).2 with ⟨t, ht, hlt⟩
  rw [hts] at ht
  exact absurd (Option.some.inj ht ▸ hlt) (lt_irrefl T)

/-- C6 witness: a record timestamped exactly at the checkpoint value 5 is
excluded by the incremental filter. -/
theorem filter_incremental_spec_witness :
    (InRecord.mk (some "BTC") (some "Bitcoin") none none none (some 5) none).source_updated_at
        = some 5
    ∧ (InRecord.mk (some "BTC") (some "Bitcoin") none none none (some 5) none) ∉
        filter_incremental
          [InRecord.mk (some "BTC") (some "Bitcoin") none none none (some 5) none] (some 5) :=
  ⟨rfl,
    (filter_incremental_spec
      [InRecord.mk (some "BTC") (some "Bitcoin") none none none (some 5) none] 5
      (InRecord.mk (some "BTC") (some "Bitcoin") none none none (some 5) none)).2.2 rfl⟩

/-- C1: the ETL normalization step does not consult the Entity Resolver. On a
CoinGecko record for symbol BTC whose payload carries the provider ID
"bitcoin", `_normalize` assigns the canonical uid "btc"
(lowercased symbol), while the resolver cascade of
`AssetUnificationService.resolve` — which the spec (and `main.py`'s call
`ETLService(db, asset_service=...)`, as well as `resolve`'s own docstring)
expects to run per normalized record — would synthesize the uid "bitcoin"
from the lowercased provider ID. The two disagree on this input. -/
theorem etl_normalize_bypasses_resolver :
    ((_normalize
        [InRecord.mk (some "BTC") (some "Bitcoin") (some 50000) none (some 1) (some 100)
          (some "bitcoin")] "coingecko").map (fun r => r.asset_uid) = ["btc"])
    ∧ (resolve [] [] "coingecko" "BTC" "Bitcoin" (some (Payload.mk (some "bitcoin")))).asset_uid
        = "bitcoin"
    ∧ ("btc" : String) ≠ "bitcoin" :=
  ⟨rfl, rfl, by decide⟩

/-- C2 counterexample: an upsert whose incoming `source_updated_at` (3) is not
fresher than the stored row's (5) still overwrites the stored values — the
`ON CONFLICT DO UPDATE` clause of `_upsert_normalized` carries no freshness
guard. The stored price 10 becomes the stale batch's 99. -/
theorem upsert_overwrites_stale_counterexample :
    (_upsert_normalized 7
        [CanonRow.mk "btc" "BTC" "Bitcoin" (some 10) none (some 1) "coingecko" (some 5) none none 0]
        [NormRow.mk "btc" "BTC" "Bitcoin" (some 99) none (some 1) "coinpaprika" (some 3)]).map
        (fun c => (c.price_usd, c.source_updated_at, c.source))
      = [(some 99, some 3, "coinpaprika")]
    ∧ ((3 : Nat) ≤ 5) :=
  ⟨rfl, by decide⟩

/-- C2 (amended): an upsert targeting an existing `asset_uid` overwrites the
row's mutable fields unconditionally — whatever the ordering between the
incoming and stored `source_updated_at` — setting `ingested_at` to now,
while rows with other uids are left in the table untouched. -/
theorem upsert_overwrites_unconditionally (now : Nat) (table : List CanonRow) (r : NormRow) :
    ∀ c ∈ upsertRow now table r,
      (c.asset_uid = r.asset_uid →
        c.symbol = r.symbol ∧ c.name = r.name ∧ c.price_usd = r.price_usd ∧
        c.market_cap_usd = r.market_cap_usd ∧ c.rank = r.rank ∧ c.source = r.source ∧
        c.source_updated_at = r.source_updated_at ∧ c.ingested_at = now)
      ∧ (c.asset_uid ≠ r.asset_uid → c ∈ table) := by
  intro c hc
  unfold upsertRow at hc
  split at hc
  · rcases List.mem_map.1 hc with ⟨c0, hc0, rfl⟩
    by_cases hu : c0.asset_uid = r.asset_uid
    · refine ⟨fun _ => ?_, fun hne => absurd ?_ hne⟩
      · simp [hu]
      · simp [hu]
    · rw [if_neg hu]
      exact ⟨fun h => absurd h hu, fun _ => hc0⟩
  · rename_i hany
    rcases List.mem_append.1 hc with h | h
    · refine ⟨fun hcu => absurd hcu ?_, fun _ => h⟩
      intro hcu
      exact hany (List.any_eq_true.2 ⟨c, h, by simpa using hcu⟩)
    · simp only [List.mem_singleton] at h
      subst h
      exact ⟨fun _ => ⟨rfl, rfl, rfl, rfl, rfl, rfl, rfl, rfl⟩, fun hne => absurd rfl hne⟩

/-- C2 witness: the amended overwrite property at the stale-batch instance of
the counterexample. -/
theorem upsert_overwrites_unconditionally_witness :
    (CanonRow.mk "btc" "BTC2" "Bitcoin" (some 99) none (some 1) "coinpaprika" (some 3) none none 7)
        ∈ upsertRow 7
          [CanonRow.mk "btc" "BTC" "Bitcoin" (some 10) none (some 1) "coingecko" (some 5) none
            none 0]
          (NormRow.mk "btc" "BTC2" "Bitcoin" (some 99) none (some 1) "coinpaprika" (some 3))
    ∧ ((CanonRow.mk "btc" "BTC2" "Bitcoin" (some 99) none (some 1) "coinpaprika" (some 3) none none
          7).symbol = "BTC2"
        ∧ (CanonRow.mk "btc" "BTC2" "Bitcoin" (some 99) none (some 1) "coinpaprika" (some 3) none
            none 7).name = "Bitcoin"
        ∧ (CanonRow.mk "btc" "BTC2" "Bitcoin" (some 99) none (some 1) "coinpaprika" (some 3) none
            none 7).price_usd = some 99
        ∧ (CanonRow.mk "btc" "BTC2" "Bitcoin" (some 99) none (some 1) "coinpaprika" (some 3) none
            none 7).market_cap_usd = none
        ∧ (CanonRow.mk "btc" "BTC2" "Bitcoin" (some 99) none (some 1) "coinpaprika" (some 3) none
            none 7).rank = some 1
        ∧ (CanonRow.mk "btc" "BTC2" "Bitcoin" (some 99) none (some 1) "coinpaprika" (some 3) none
            none 7).source = "coinpaprika"
        ∧ (CanonRow.mk "btc" "BTC2" "Bitcoin" (some 99) none (some 1) "coinpaprika" (some 3) none
            none 7).source_updated_at = some 3
        ∧ (CanonRow.mk "btc" "BTC2" "Bitcoin" (some 99) none (some 1) "coinpaprika" (some 3) none
            none 7).ingested_at = 7) :=
  ⟨by decide,
    (upsert_overwrites_unconditionally 7
      [CanonRow.mk "btc" "BTC" "Bitcoin" (some 10) none (some 1) "coingecko" (some 5) none none 0]
      (NormRow.mk "btc" "BTC2" "Bitcoin" (some 99) none (some 1) "coinpaprika" (some 3))
      (CanonRow.mk "btc" "BTC2" "Bitcoin" (some 99) none (some 1) "coinpaprika" (some 3) none none
        7) (by decide)).1 rfl⟩

/-- Soundness of the batch maximum: a successful `batchMaxTs` is an upper
bound of every timestamp in the batch and is attained by one of them. -/
theorem batchMaxTs_spec : ∀ (l : List InRecord) (M : Nat), batchMaxTs l = some M →
    (∀ r ∈ l, ∀ t, r.source_updated_at = some t → t ≤ M)
    ∧ ∃ r ∈ l, r.source_updated_at = some M := by
  intro l
  induction l with
  | nil => intro M h; cases h
  | cons r rest ih =>
    intro M h
    cases rest with
    | nil =>
      simp only [batchMaxTs] at h
      refine ⟨?_, ⟨r, by simp, h⟩⟩
      intro x hx t ht
      simp only [List.mem_singleton] at hx
      subst hx
      rw [ht] at h
      exact le_of_eq (Option.some.inj h)
    | cons r2 rest2 =>
      unfold batchMaxTs at h
      cases hts : r.source_updated_at with
      | none => rw [hts] at h; cases h
      | some t =>
        rw [hts] at h
        cases hrec : batchMaxTs (r2 :: rest2) with
        | none => rw [hrec] at h; cases h
        | some m =>
          rw [hrec] at h
          have hM : M = max t m := (Option.some.inj h).symm
          rcases ih m hrec with ⟨hbound, hex⟩
          constructor
          · intro x hx tx htx
            rcases List.mem_cons.1 hx with hx | hx
            · subst hx
              rw [hts] at htx
              have htx' : tx = t := (Option.some.inj htx).symm
              subst htx'
              rw [hM]
              exact le_max_left _ _
            · rw [hM]
              exact le_trans (hbound x hx tx htx) (le_max_right t m)
          · rcases max_choice t m with hmax | hmax
            · exact ⟨r, List.mem_cons_self _ _, by rw [hts, hM, hmax]⟩
            · rcases hex with ⟨x, hx, hxts⟩
              exact ⟨x, List.mem_cons_of_mem _ hx, by rw [hxts, hM, hmax]⟩

/-- C4: a successful run leaves the checkpoint untouched when the incremental
filter yields no fresh records, never decreases it, and on a non-empty fresh
batch sets it to the maximum `source_updated_at` observed in the fetched
batch (computed before deduplication: `checkpointAfterRun` consumes the
filtered fetch, not the dedup output). -/
theorem checkpoint_monotone (cp : Option Nat) (fetched : List InRecord) (cp' : Option Nat)
    (h : checkpointAfterRun cp fetched = some cp') :
    (filter_incremental fetched cp = [] → cp' = cp)
    ∧ (∀ T T', cp = some T → cp' = some T' → T ≤ T')
    ∧ (filter_incremental fetched cp ≠ [] →
        ∃ M, cp' = some M
          ∧ (∀ r ∈ filter_incremental fetched cp, ∀ t, r.source_updated_at = some t → t ≤ M)
          ∧ ∃ r ∈ filter_incremental fetched cp, r.source_updated_at = some M) := by
  unfold checkpointAfterRun at h
  by_cases hem : (filter_incremental fetched cp).isEmpty
  · rw [if_pos hem] at h
    have hcp : cp' = cp := (Option.some.inj h).symm
    refine ⟨fun _ => hcp, ?_, ?_⟩
    · intro T T' hT hT'
      rw [hcp, hT] at hT'
      exact le_of_eq (Option.some.inj hT')
    · intro hne
      exact absurd (List.isEmpty_iff.1 hem) hne
  · rw [if_neg hem] at h
    cases hmax : batchMaxTs (filter_incremental fetched cp) with
    | none => rw [hmax] at h; cases h
    | some M =>
      rw [hmax] at h
      have hcp : cp' = some M := (Option.some.inj h).symm
      rcases batchMaxTs_spec _ M hmax with ⟨hbound, x, hx, hxts⟩
      refine ⟨?_, ?_, fun _ => ⟨M, hcp, hbound, x, hx, hxts⟩⟩
      · intro hemp
        exact absurd (show (filter_incremental fetched cp).isEmpty = true by rw [hemp]; rfl) hem
      · intro T T' hT hT'
        subst hT
        rcases (mem_filter_incremental fetched T x).1 hx with ⟨_, t, hts, hlt⟩
        rw [hts] at hxts
        have hTM : T < M := Option.some.inj hxts ▸ hlt
        rw [hcp] at hT'
        exact le_of_lt (Option.some.inj hT' ▸ hTM)

/-- C4 witness: checkpoint 5 with fresh records timestamped 7 and 9 advances
to 9. -/
theorem checkpoint_monotone_witness :
    checkpointAfterRun (some 5)
        [InRecord.mk (some "BTC") none none none none (some 7) none,
         InRecord.mk (some "ETH") none none none none (some 9) none] = some (some 9)
    ∧ (5 : Nat) ≤ 9 :=
  ⟨rfl, by
    have h := checkpoint_monotone (some 5)
      [InRecord.mk (some "BTC") none none none none (some 7) none,
       InRecord.mk (some "ETH") none none none none (some 9) none] (some 9) rfl
    exact h.2.1 5 9 rfl rfl⟩

/-- C5: whenever the pipeline raises after the Run row is created — total
fetch failure, database fault during raw persistence or upsert, or an
unorderable timestamp at checkpoint advancement — the transaction overlay is
rolled back (raw, canonical and checkpoint tables are exactly as before the
run), the Run row alone is committed as a `failure` whose non-null
`error_message` is the exception message, and the exception is re-raised. -/
theorem etl_failure_rolls_back (db : DBState) (source : String)
    (fetchResult : Except String (List InRecord)) (pf uf : Option String) (now : Nat) (e : String)
    (h : (etlRun db source fetchResult pf uf now).2 = Except.error e) :
    (etlRun db source fetchResult pf uf now).1 =
      { db with runs := db.runs ++ [RunRow.mk source "failure" 0 (some e)] } := by
  cases fetchResult with
  | error e0 =>
    simp only [etlRun] at h ⊢
    simp at h
    rw [h]
  | ok fetched =>
    by_cases hem : (filter_incremental fetched ((db.checkpoints).lookup source)).isEmpty
    · simp [etlRun, hem] at h
    · cases pf with
      | some e0 =>
        simp only [etlRun] at h ⊢
        simp [hem] at h ⊢
        rw [h]
      | none =>
        cases uf with
        | some e0 =>
          simp only [etlRun] at h ⊢
          simp [hem] at h ⊢
          rw [h]
        | none =>
          cases hmax : batchMaxTs (filter_incremental fetched ((db.checkpoints).lookup source)) with
          | none =>
            simp only [etlRun] at h ⊢
            simp [hem, hmax] at h ⊢
            rw [h]
          | some newest =>
            simp only [etlRun] at h ⊢
            simp [hem, hmax] at h

/-- C5 witness: an injected upsert fault "boom" on a one-record batch leaves
every data table empty and commits exactly one failure Run row. -/
theorem etl_failure_rolls_back_witness :
    (etlRun (DBState.mk [] [] [] []) "coingecko"
        (Except.ok [InRecord.mk (some "BTC") (some "Bitcoin") none none none (some 4) none])
        none (some "boom") 3).2 = Except.error "boom"
    ∧ (etlRun (DBState.mk [] [] [] []) "coingecko"
        (Except.ok [InRecord.mk (some "BTC") (some "Bitcoin") none none none (some 4) none])
        none (some "boom") 3).1 =
        DBState.mk [] [] [] [RunRow.mk "coingecko" "failure" 0 (some "boom")] :=
  ⟨rfl,
    etl_failure_rolls_back (DBState.mk [] [] [] []) "coingecko"
      (Except.ok [InRecord.mk (some "BTC") (some "Bitcoin") none none none (some 4) none])
      none (some "boom") 3 "boom" rfl⟩

/-- A `normalized_crypto_assets` row with `ingested_at` erased: the claim C3
compares table contents up to that column. -/
structure ECanonRow where
  asset_uid : String
  symbol : String
  name : String
  price_usd : Option Rat
  market_cap_usd : Option Rat
  rank : Option Int
  source : String
  source_updated_at : Option Nat
  coingecko_id : Option String
  coinpaprika_id : Option String
deriving DecidableEq

/-- Forget the `ingested_at` column of a stored row. -/
def eraseIngested (c : CanonRow) : ECanonRow :=
  ECanonRow.mk c.asset_uid c.symbol c.name c.price_usd c.market_cap_usd c.rank c.source
    c.source_updated_at c.coingecko_id c.coinpaprika_id

/-- The `SET` clause of the upsert on an `ingested_at`-erased row. -/
def overwriteE (r : NormRow) (ec : ECanonRow) : ECanonRow :=
  { ec with
    symbol := r.symbol
    name := r.name
    price_usd := r.price_usd
    market_cap_usd := r.market_cap_usd
    rank := r.rank
    source := r.source
    source_updated_at := r.source_updated_at }

/-- The freshly inserted row of the upsert, `ingested_at` erased. -/
def newE (r : NormRow) : ECanonRow :=
  ECanonRow.mk r.asset_uid r.symbol r.name r.price_usd r.market_cap_usd r.rank r.source
    r.source_updated_at none none

/-- The single-row upsert on `ingested_at`-erased tables. -/
def eUpsertRow (table : List ECanonRow) (r : NormRow) : List ECanonRow :=
  if table.any (fun c => c.asset_uid = r.asset_uid) then
    table.map (fun c => if c.asset_uid = r.asset_uid then overwriteE r c else c)
  else table ++ [newE r]

/-- Erasing `ingested_at` commutes with the single-row upsert: `now` only ever
lands in the erased column. -/
theorem erase_upsertRow (now : Nat) (table : List CanonRow) (r : NormRow) :
    (upsertRow now table r).map eraseIngested = eUpsertRow (table.map eraseIngested) r := by
  unfold upsertRow eUpsertRow
  have hany : ((table.map eraseIngested).any (fun c => c.asset_uid = r.asset_uid))
      = table.any (fun c => c.asset_uid = r.asset_uid) := by
    induction table with
    | nil => rfl
    | cons c cs ihc => simp [ihc, eraseIngested]
  rw [hany]
  split
  · rw [List.map_map, List.map_map]
    refine List.map_congr_left ?_
    intro c _
    by_cases hu : c.asset_uid = r.asset_uid
    · simp [Function.comp, hu, overwriteE, eraseIngested]
    · simp [Function.comp, hu, eraseIngested]
  · rw [List.map_append]
    rfl

/-- Erasing `ingested_at` commutes with the batch upsert. -/
theorem erase_upsert_fold (now : Nat) (table : List CanonRow) (rows : List NormRow) :
    (_upsert_normalized now table rows).map eraseIngested =
      rows.foldl eUpsertRow (table.map eraseIngested) := by
  induction rows generalizing table with
  | nil => rfl
  | cons r rs ih =>
    unfold _upsert_normalized at ih ⊢
    simp only [List.foldl_cons]
    rw [ih (upsertRow now table r), erase_upsertRow]

/-- Rows the single-row upsert leaves for its own uid are saturated: applying
the `SET` clause to them again changes nothing. -/
theorem eUpsertRow_fix_self (l : List ECanonRow) (r : NormRow) :
    ∀ ec ∈ eUpsertRow l r, ec.asset_uid = r.asset_uid → overwriteE r ec = ec := by
  unfold eUpsertRow
  split
  · intro ec hec hu
    rcases List.mem_map.1 hec with ⟨c, _, rfl⟩
    by_cases hc : c.asset_uid = r.asset_uid
    · rw [if_pos hc]
      rfl
    · rw [if_neg hc] at hu ⊢
      exact absurd hu hc
  · rename_i hany
    intro ec hec hu
    rcases List.mem_append.1 hec with h | h
    · exact absurd (List.any_eq_true.2 ⟨ec, h, by simpa using hu⟩) hany
    · simp only [List.mem_singleton] at h
      subst h
      rfl

/-- An upsert for a different uid does not disturb saturation of uid-`r`
rows. -/
theorem eUpsertRow_preserve_fix (l : List ECanonRow) (r r2 : NormRow)
    (hne : r2.asset_uid ≠ r.asset_uid)
    (hfix : ∀ ec ∈ l, ec.asset_uid = r.asset_uid → overwriteE r ec = ec) :
    ∀ ec ∈ eUpsertRow l r2, ec.asset_uid = r.asset_uid → overwriteE r ec = ec := by
  unfold eUpsertRow
  split
  · intro ec hec hu
    rcases List.mem_map.1 hec with ⟨c, hc, rfl⟩
    by_cases hcu : c.asset_uid = r2.asset_uid
    · rw [if_pos hcu] at hu ⊢
      exact absurd (show c.asset_uid = r.asset_uid from hu) (hcu ▸ hne ∘ Eq.symm ∘ Eq.symm)
    · rw [if_neg hcu] at hu ⊢
      exact hfix c hc hu
  · intro ec hec hu
    rcases List.mem_append.1 hec with h | h
    · exact hfix ec h hu
    · simp only [List.mem_singleton] at h
      subst h
      exact absurd hu hne

/-- The upsert never loses a uid already present in the table. -/
theorem eUpsertRow_preserve_presence (l : List ECanonRow) (r2 : NormRow) (u : String)
    (h : ∃ ec ∈ l, ec.asset_uid = u) : ∃ ec ∈ eUpsertRow l r2, ec.asset_uid = u := by
  rcases h with ⟨ec, hec, hu⟩
  unfold eUpsertRow
  split
  · refine ⟨if ec.asset_uid = r2.asset_uid then overwriteE r2 ec else ec,
      List.mem_map_of_mem _ hec, ?_⟩
    by_cases hcu : ec.asset_uid = r2.asset_uid
    · rw [if_pos hcu]
      exact hu
    · rw [if_neg hcu]
      exact hu
  · exact ⟨ec, List.mem_append_left _ hec, hu⟩

/-- After upserting `r`, uid `r.asset_uid` is present. -/
theorem eUpsertRow_presence_self (l : List ECanonRow) (r : NormRow) :
    ∃ ec ∈ eUpsertRow l r, ec.asset_uid = r.asset_uid := by
  unfold eUpsertRow
  split
  · rename_i hany
    rcases List.any_eq_true.1 hany with ⟨c, hc, hcu⟩
    refine ⟨if c.asset_uid = r.asset_uid then overwriteE r c else c,
      List.mem_map_of_mem _ hc, ?_⟩
    rw [if_pos (by simpa using hcu)]
    simpa using hcu
  · exact ⟨newE r, List.mem_append_right _ (List.mem_singleton_self _), rfl⟩

/-- A batch of upserts for other uids preserves saturation of uid-`r` rows. -/
theorem eUpsert_fold_preserve_fix (rs : List NormRow) (r : NormRow)
    (hrs : ∀ r2 ∈ rs, r2.asset_uid ≠ r.asset_uid) :
    ∀ l : List ECanonRow, (∀ ec ∈ l, ec.asset_uid = r.asset_uid → overwriteE r ec = ec) →
      ∀ ec ∈ rs.foldl eUpsertRow l, ec.asset_uid = r.asset_uid → overwriteE r ec = ec := by
  induction rs with
  | nil => exact fun l h => h
  | cons r2 rs2 ih =>
    intro l hfix
    exact ih (fun x hx => hrs x (List.mem_cons_of_mem _ hx)) (eUpsertRow l r2)
      (eUpsertRow_preserve_fix l r r2 (hrs r2 (List.mem_cons_self _ _)) hfix)

/-- A batch of upserts preserves presence of any uid. -/
theorem eUpsert_fold_preserve_presence (rs : List NormRow) (u : String) :
    ∀ l : List ECanonRow, (∃ ec ∈ l, ec.asset_uid = u) →
      ∃ ec ∈ rs.foldl eUpsertRow l, ec.asset_uid = u := by
  induction rs with
  | nil => exact fun l h => h
  | cons r2 rs2 ih =>
    intro l h
    exact ih (eUpsertRow l r2) (eUpsertRow_preserve_presence l r2 u h)

/-- Upserting `r` into a table whose uid-`r` rows are already saturated and
present is a no-op. -/
theorem eUpsertRow_of_fixed (l : List ECanonRow) (r : NormRow)
    (hpres : ∃ ec ∈ l, ec.asset_uid = r.asset_uid)
    (hfix : ∀ ec ∈ l, ec.asset_uid = r.asset_uid → overwriteE r ec = ec) :
    eUpsertRow l r = l := by
  unfold eUpsertRow
  rcases hpres with ⟨ec, hec, hu⟩
  rw [if_pos (List.any_eq_true.2 ⟨ec, hec, by simpa using hu⟩)]
  have : ∀ c ∈ l, (if c.asset_uid = r.asset_uid then overwriteE r c else c) = c := by
    intro c hc
    by_cases hcu : c.asset_uid = r.asset_uid
    · rw [if_pos hcu]
      exact hfix c hc hcu
    · rw [if_neg hcu]
  rw [List.map_congr_left this]
  simp

/-- Re-upserting `r` after the rest of a distinct-uid batch has run is
absorbed. -/
theorem eUpsert_step_absorb (l : List ECanonRow) (r : NormRow) (rs : List NormRow)
    (hrs : ∀ r2 ∈ rs, r2.asset_uid ≠ r.asset_uid) :
    eUpsertRow (rs.foldl eUpsertRow (eUpsertRow l r)) r = rs.foldl eUpsertRow (eUpsertRow l r) :=
  eUpsertRow_of_fixed _ r
    (eUpsert_fold_preserve_presence rs r.asset_uid _ (eUpsertRow_presence_self l r))
    (eUpsert_fold_preserve_fix rs r hrs _ (eUpsertRow_fix_self l r))

/-- Idempotence of the erased batch upsert on distinct-uid batches. -/
theorem eUpsert_fold_idem (rows : List NormRow)
    (hnd : (rows.map (fun r => r.asset_uid)).Nodup) :
    ∀ l : List ECanonRow,
      rows.foldl eUpsertRow (rows.foldl eUpsertRow l) = rows.foldl eUpsertRow l := by
  induction rows with
  | nil => exact fun l => rfl
  | cons r rs ih =>
    intro l
    rcases List.nodup_cons.1 hnd with ⟨hnotin, hnd2⟩
    have hrs : ∀ r2 ∈ rs, r2.asset_uid ≠ r.asset_uid := by
      intro r2 hr2 hcontra
      exact hnotin (List.mem_map.2 ⟨r2, hr2, hcontra⟩)
    simp only [List.foldl_cons]
    rw [eUpsert_step_absorb l r rs hrs]
    exact ih hnd2 (eUpsertRow l r)

/-- C3: the upsert step is idempotent — re-applying the same normalized batch
leaves the `normalized_crypto_assets` table contents (every column except
`ingested_at`) exactly as after the first application, in particular
creating no duplicate rows. -/
theorem upsert_idempotent (records : List InRecord) (source : String) (table : List CanonRow)
    (n1 n2 : Nat) :
    (_upsert_normalized n2 (_upsert_normalized n1 table (_normalize records source))
        (_normalize records source)).map eraseIngested
      = (_upsert_normalized n1 table (_normalize records source)).map eraseIngested := by
  rw [erase_upsert_fold, erase_upsert_fold]
  exact eUpsert_fold_idem (_normalize records source) (normalize_uids_nodup records source)
    (table.map eraseIngested)

/-- The winner between a stored dedup entry and an incoming record: exactly
the replacement test of `_normalize`'s dedup dictionary. -/
def keepFresher (a b : NormRow) : NormRow :=
  if tsDominates b.source_updated_at a.source_updated_at then b else a

/-- Congruence of `find?` under a pointwise-equal predicate. -/
theorem find?_congr_local {α : Type} (l : List α) (p q : α → Bool) (h : ∀ a ∈ l, p a = q a) :
    l.find? p = l.find? q := by
  induction l with
  | nil => rfl
  | cons a as ih =>
    have ha := h a (List.mem_cons_self _ _)
    cases hp : p a with
    | true =>
      rw [List.find?_cons_of_pos _ hp, List.find?_cons_of_pos _ (ha ▸ hp)]
    | false =>
      rw [List.find?_cons_of_neg _ (by simp [hp]), List.find?_cons_of_neg _ (by simp [ha ▸ hp])]
      exact ih (fun x hx => h x (List.mem_cons_of_mem _ hx))

/-- Splitting `find?` over an append. -/
theorem find?_append_local {α : Type} (l1 l2 : List α) (p : α → Bool) :
    (l1 ++ l2).find? p =
      match l1.find? p with
      | some a => some a
      | none => l2.find? p := by
  induction l1 with
  | nil => rfl
  | cons a as ih =>
    cases hp : p a with
    | true =>
      rw [List.cons_append, List.find?_cons_of_pos _ hp, List.find?_cons_of_pos _ hp]
    | false =>
      rw [List.cons_append, List.find?_cons_of_neg _ (by simp [hp]),
        List.find?_cons_of_neg _ (by simp [hp]), ih]

/-- In-place dict replacement keeps keys, so a key search commutes with it. -/
theorem find?_replace_key (acc : List (String × NormRow)) (p : NormRow) (u : String) :
    (acc.map (fun e => if e.1 = p.asset_uid then (e.1, p) else e)).find? (fun q => q.1 = u)
      = (acc.find? (fun q => q.1 = u)).map (fun e => if e.1 = p.asset_uid then (e.1, p) else e) := by
  induction acc with
  | nil => rfl
  | cons e es ih =>
    have hkey : (if e.1 = p.asset_uid then (e.1, p) else e).1 = e.1 := by
      by_cases hk : e.1 = p.asset_uid <;> simp [hk]
    by_cases hu : e.1 = u
    · rw [List.map_cons, List.find?_cons_of_pos _ (by simpa [hkey] using hu),
        List.find?_cons_of_pos _ (by simpa using hu)]
      rfl
    · rw [List.map_cons, List.find?_cons_of_neg _ (by simpa [hkey] using hu),
        List.find?_cons_of_neg _ (by simpa using hu), ih]

/-- Dedup steps for other uids do not move a key's entry. -/
theorem dedupStep_find_other (acc : List (String × NormRow)) (p : NormRow) (u : String)
    (hne : p.asset_uid ≠ u) :
    (dedupStep acc p).find? (fun q => q.1 = u) = acc.find? (fun q => q.1 = u) := by
  cases hfind : acc.find? (fun q => q.1 = p.asset_uid) with
  | none =>
    unfold dedupStep
    rw [hfind, find?_append_local]
    cases hacc : acc.find? (fun q => q.1 = u) with
    | some q => rfl
    | none =>
      show List.find? (fun q => q.1 = u) [(p.asset_uid, p)] = none
      rw [List.find?_cons_of_neg _ (by simpa using hne), List.find?_nil]
  | some q =>
    unfold dedupStep
    rw [hfind]
    show (if tsDominates p.source_updated_at q.2.source_updated_at then
        acc.map (fun e => if e.1 = p.asset_uid then (e.1, p) else e) else acc).find?
        (fun q => q.1 = u) = acc.find? (fun q => q.1 = u)
    by_cases hdom : tsDominates p.source_updated_at q.2.source_updated_at
    · rw [if_pos hdom, find?_replace_key]
      cases hacc : acc.find? (fun q => q.1 = u) with
      | none => rfl
      | some e =>
        have he : e.1 = u := by simpa using List.find?_some hacc
        show some (if e.1 = p.asset_uid then (e.1, p) else e) = some e
        rw [if_neg (by rw [he]; exact fun h => hne h.symm)]
    · rw [if_neg hdom]

/-- Characterization of the dedup dictionary: the entry stored under uid `u`
after folding a batch is the `keepFresher` fold of the batch records whose
uid is `u`, seeded by whatever the dictionary already held. -/
theorem dedup_fold_find (ps : List NormRow) (u : String) :
    ∀ acc : List (String × NormRow),
      (ps.foldl dedupStep acc).find? (fun q => q.1 = u) =
        match acc.find? (fun q => q.1 = u), ps.filter (fun p => p.asset_uid = u) with
        | some q, l => some (u, l.foldl keepFresher q.2)
        | none, [] => none
        | none, y :: ys => some (u, ys.foldl keepFresher y) := by
  induction ps with
  | nil =>
    intro acc
    cases hacc : acc.find? (fun q => q.1 = u) with
    | none =>
      show acc.find? (fun q => q.1 = u) = none
      exact hacc
    | some q =>
      have hq : q.1 = u := by simpa using List.find?_some hacc
      show acc.find? (fun q2 => q2.1 = u) = some (u, q.2)
      rw [hacc, ← hq]
  | cons p ps ih =>
    intro acc
    by_cases hpu : p.asset_uid = u
    · have hfilter : (p :: ps).filter (fun p2 => p2.asset_uid = u) =
          p :: ps.filter (fun p2 => p2.asset_uid = u) := by
        simp [List.filter_cons, hpu]
      rw [List.foldl_cons, ih (dedupStep acc p), hfilter]
      have hpred : (fun q2 : String × NormRow => (decide (q2.1 = p.asset_uid)))
          = (fun q2 : String × NormRow => decide (q2.1 = u)) := by
        funext q2
        rw [hpu]
      cases hacc : acc.find? (fun q => q.1 = u) with
      | some q =>
        have hq1 : q.1 = u := by simpa using List.find?_some hacc
        have hfind_p : acc.find? (fun q2 => q2.1 = p.asset_uid) = some q := by
          show acc.find? (fun q2 => decide (q2.1 = p.asset_uid)) = some q
          rw [hpred]
          exact hacc
        by_cases hdom : tsDominates p.source_updated_at q.2.source_updated_at
        · have hstep : (dedupStep acc p).find? (fun q2 => q2.1 = u) = some (q.1, p) := by
            unfold dedupStep
            rw [hfind_p]
            show (if tsDominates p.source_updated_at q.2.source_updated_at then
                acc.map (fun e => if e.1 = p.asset_uid then (e.1, p) else e) else acc).find?
                (fun q2 => q2.1 = u) = some (q.1, p)
            rw [if_pos hdom, find?_replace_key, hacc]
            show some (if q.1 = p.asset_uid then (q.1, p) else q) = some (q.1, p)
            rw [if_pos (by rw [hq1, hpu])]
          rw [hstep]
          show some (u, (ps.filter (fun p2 => p2.asset_uid = u)).foldl keepFresher p)
            = some (u, (p :: ps.filter (fun p2 => p2.asset_uid = u)).foldl keepFresher q.2)
          rw [List.foldl_cons,
            show keepFresher q.2 p = p from by unfold keepFresher; rw [if_pos hdom]]
        · have hstep : (dedupStep acc p).find? (fun q2 => q2.1 = u) = some q := by
            unfold dedupStep
            rw [hfind_p]
            show (if tsDominates p.source_updated_at q.2.source_updated_at then
                acc.map (fun e => if e.1 = p.asset_uid then (e.1, p) else e) else acc).find?
                (fun q2 => q2.1 = u) = some q
            rw [if_neg hdom]
            exact hacc
          rw [hstep]
          show some (u, (ps.filter (fun p2 => p2.asset_uid = u)).foldl keepFresher q.2)
            = some (u, (p :: ps.filter (fun p2 => p2.asset_uid = u)).foldl keepFresher q.2)
          rw [List.foldl_cons,
            show keepFresher q.2 p = q.2 from by unfold keepFresher; rw [if_neg hdom]]
      | none =>
        have hfind_p : acc.find? (fun q2 => q2.1 = p.asset_uid) = none := by
          show acc.find? (fun q2 => decide (q2.1 = p.asset_uid)) = none
          rw [hpred]
          exact hacc
        have hstep : (dedupStep acc p).find? (fun q2 => q2.1 = u) = some (p.asset_uid, p) := by
          unfold dedupStep
          rw [hfind_p, find?_append_local, hacc]
          show List.find? (fun q2 => q2.1 = u) [(p.asset_uid, p)] = some (p.asset_uid, p)
          rw [List.find?_cons_of_pos _ (by simpa using hpu)]
        rw [hstep]
    · have hfilter : (p :: ps).filter (fun p2 => p2.asset_uid = u) =
          ps.filter (fun p2 => p2.asset_uid = u) := by
        simp [List.filter_cons, hpu]
      rw [List.foldl_cons, ih (dedupStep acc p), dedupStep_find_other acc p u hpu, hfilter]

/-- Searching values of a coherent dictionary by uid is searching its keys. -/
theorem map_snd_find (acc : List (String × NormRow)) (u : String)
    (hco : ∀ q ∈ acc, q.2.asset_uid = q.1) :
    (acc.map (fun e => e.2)).find? (fun r => r.asset_uid = u)
      = (acc.find? (fun q => q.1 = u)).map (fun e => e.2) := by
  induction acc with
  | nil => rfl
  | cons q qs ih =>
    have hq := hco q (List.mem_cons_self _ _)
    by_cases hu : q.1 = u
    · rw [List.map_cons, List.find?_cons_of_pos _ (by simp [hq, hu]),
        List.find?_cons_of_pos _ (by simpa using hu)]
      rfl
    · rw [List.map_cons, List.find?_cons_of_neg _ (by simp [hq, hu]),
        List.find?_cons_of_neg _ (by simpa using hu)]
      exact ih (fun x hx => hco x (List.mem_cons_of_mem _ hx))

/-- The `keepFresher` fold (dedup's per-uid survivor) carries the greatest
timestamp of its group and is the first group member attaining it. -/
theorem keepFresher_fold_max : ∀ (xs : List NormRow) (x : NormRow),
    (∀ p ∈ x :: xs, p.source_updated_at.isSome) →
    (∀ y ∈ x :: xs, ∀ ty tw, y.source_updated_at = some ty →
      (xs.foldl keepFresher x).source_updated_at = some tw → ty ≤ tw)
    ∧ (x :: xs).find? (fun y => y.source_updated_at = (xs.foldl keepFresher x).source_updated_at)
        = some (xs.foldl keepFresher x) := by
  intro xs
  induction xs with
  | nil =>
    intro x hts
    constructor
    · intro y hy ty tw hty htw
      simp only [List.mem_singleton] at hy
      subst hy
      rw [List.foldl_nil, hty] at htw
      exact le_of_eq (Option.some.inj htw)
    · show (x :: []).find? (fun y => y.source_updated_at = x.source_updated_at) = some x
      rw [List.find?_cons_of_pos _ (by simp)]
  | cons b bs ih =>
    intro x hts
    obtain ⟨tx, hx⟩ := Option.isSome_iff_exists.1 (hts x (List.mem_cons_self _ _))
    obtain ⟨tb, hb⟩ := Option.isSome_iff_exists.1
      (hts b (List.mem_cons_of_mem _ (List.mem_cons_self _ _)))
    have hts' : ∀ p ∈ keepFresher x b :: bs, p.source_updated_at.isSome := by
      intro p hp
      rcases List.mem_cons.1 hp with hp | hp
      · subst hp
        unfold keepFresher
        by_cases hdom : tsDominates b.source_updated_at x.source_updated_at
        · rw [if_pos hdom]
          exact hts b (List.mem_cons_of_mem _ (List.mem_cons_self _ _))
        · rw [if_neg hdom]
          exact hts x (List.mem_cons_self _ _)
      · exact hts p (List.mem_cons_of_mem _ (List.mem_cons_of_mem _ hp))
    rcases ih (keepFresher x b) hts' with ⟨ihmax, ihfind⟩
    obtain ⟨tw, hwt⟩ := Option.isSome_iff_exists.1
      (hts' _ (List.mem_of_find?_eq_some ihfind))
    by_cases hcmp : tx < tb
    · have hx'b : keepFresher x b = b := by
        unfold keepFresher
        rw [hb, hx, if_pos (show tsDominates (some tb) (some tx) = true by
          simpa [tsDominates] using hcmp)]
      rw [hx'b] at ihmax ihfind hwt
      have htb_le : tb ≤ tw :=
        ihmax b (List.mem_cons_self _ _) tb tw hb hwt
      have htx_le : tx ≤ tw := le_trans (le_of_lt hcmp) htb_le
      have htx_ne : tx ≠ tw := Nat.ne_of_lt (lt_of_lt_of_le hcmp htb_le)
      constructor
      · intro y hy ty tw2 hty htw2
        rw [List.foldl_cons, hx'b] at htw2
        have htw2' : tw2 = tw := by
          rw [hwt] at htw2
          exact (Option.some.inj htw2).symm
        rw [htw2']
        rcases List.mem_cons.1 hy with hy | hy
        · subst hy
          rw [hx] at hty
          exact (Option.some.inj hty) ▸ htx_le
        · exact ihmax y hy ty tw hty hwt
      · rw [List.foldl_cons, hx'b]
        have hPx : ¬ x.source_updated_at = (bs.foldl keepFresher b).source_updated_at := by
          rw [hx, hwt]
          intro hcon
          exact htx_ne (Option.some.inj hcon)
        rw [List.find?_cons_of_neg _ (by simpa using hPx)]
        exact ihfind
    · have hx'x : keepFresher x b = x := by
        unfold keepFresher
        rw [hb, hx, if_neg (show ¬ tsDominates (some tb) (some tx) = true by
          simpa [tsDominates] using hcmp)]
      rw [hx'x] at ihmax ihfind hwt
      have htx_le : tx ≤ tw :=
        ihmax x (List.mem_cons_self _ _) tx tw hx hwt
      have htb_le : tb ≤ tw := le_trans (Nat.le_of_not_lt hcmp) htx_le
      constructor
      · intro y hy ty tw2 hty htw2
        rw [List.foldl_cons, hx'x] at htw2
        have htw2' : tw2 = tw := by
          rw [hwt] at htw2
          exact (Option.some.inj htw2).symm
        rw [htw2']
        rcases List.mem_cons.1 hy with hy | hy
        · subst hy
          rw [hx] at hty
          exact (Option.some.inj hty) ▸ htx_le
        · rcases List.mem_cons.1 hy with hy2 | hy2
          · subst hy2
            rw [hb] at hty
            exact (Option.some.inj hty) ▸ htb_le
          · exact ihmax y (List.mem_cons_of_mem _ hy2) ty tw hty hwt
      · rw [List.foldl_cons, hx'x]
        by_cases hPx : x.source_updated_at = (bs.foldl keepFresher x).source_updated_at
        · have h1 : (x :: bs).find?
              (fun y => y.source_updated_at = (bs.foldl keepFresher x).source_updated_at)
              = some x := List.find?_cons_of_pos _ (by simpa using hPx)
          have hxw : x = bs.foldl keepFresher x := by
            rw [ihfind] at h1
            exact (Option.some.inj h1).symm
          rw [List.find?_cons_of_pos _ (by simpa using hPx)]
          exact congrArg some hxw
        · have htx_ne : tx ≠ tw := by
            intro hcon
            exact hPx (by rw [hx, hwt, hcon])
          have htx_lt : tx < tw := Nat.lt_of_le_of_ne htx_le htx_ne
          have hPb : ¬ b.source_updated_at = (bs.foldl keepFresher x).source_updated_at := by
            rw [hb, hwt]
            intro hcon
            exact Nat.ne_of_lt (Nat.lt_of_le_of_lt (Nat.le_of_not_lt hcmp) htx_lt)
              (Option.some.inj hcon)
          rw [List.find?_cons_of_neg _ (by simpa using hPx),
            List.find?_cons_of_neg _ (by simpa using hPb)]
          rwa [List.find?_cons_of_neg _ (by simpa using hPx)] at ihfind

/-- C7: within-batch deduplication keeps, for each `asset_uid`, exactly the
record with the greatest `source_updated_at` — the emitted row for uid `u`
is the `keepFresher` fold of the records normalizing to `u`, that fold
carries the group's maximum timestamp, and it is the first group member
attaining that timestamp (ties keep the first seen); in particular, for a
group with timestamps t1 < t2 the emitted row is the t2 record exactly. -/
theorem dedup_keeps_freshest (records : List InRecord) (source : String) (u : String)
    (x : NormRow) (xs : List NormRow)
    (hgrp : (records.filterMap (normalizeRecord source)).filter (fun p => p.asset_uid = u)
      = x :: xs)
    (hts : ∀ p ∈ x :: xs, p.source_updated_at.isSome) :
    (_normalize records source).find? (fun r => r.asset_uid = u) = some (xs.foldl keepFresher x)
    ∧ (∀ y ∈ x :: xs, ∀ ty tw, y.source_updated_at = some ty →
        (xs.foldl keepFresher x).source_updated_at = some tw → ty ≤ tw)
    ∧ (x :: xs).find? (fun y => y.source_updated_at = (xs.foldl keepFresher x).source_updated_at)
        = some (xs.foldl keepFresher x) := by
  have hco := dedup_fold_coherent (records.filterMap (normalizeRecord source)) [] (by simp)
  have hfind := dedup_fold_find (records.filterMap (normalizeRecord source)) u []
  refine ⟨?_, (keepFresher_fold_max xs x hts).1, (keepFresher_fold_max xs x hts).2⟩
  unfold _normalize
  rw [map_snd_find _ u hco, hfind, List.find?_nil, hgrp]
  rfl

/-- C7 witness: two records for uid "btc" timestamped 3 and 9 in one batch —
the emitted row is the fresher (9) record exactly. -/
theorem dedup_keeps_freshest_witness :
    (([InRecord.mk (some "BTC") (some "Bitcoin") (some 1) none none (some 3) none,
       InRecord.mk (some "btc") (some "Bitcoin") (some 2) none none (some 9) none].filterMap
        (normalizeRecord "csv")).filter (fun p => p.asset_uid = "btc")
      = [NormRow.mk "btc" "BTC" "Bitcoin" (some 1) none none "csv" (some 3),
         NormRow.mk "btc" "BTC" "Bitcoin" (some 2) none none "csv" (some 9)])
    ∧ (_normalize
        [InRecord.mk (some "BTC") (some "Bitcoin") (some 1) none none (some 3) none,
         InRecord.mk (some "btc") (some "Bitcoin") (some 2) none none (some 9) none]
        "csv").find? (fun r => r.asset_uid = "btc")
      = some (NormRow.mk "btc" "BTC" "Bitcoin" (some 2) none none "csv" (some 9)) := by
  refine ⟨rfl, ?_⟩
  have h := (dedup_keeps_freshest
    [InRecord.mk (some "BTC") (some "Bitcoin") (some 1) none none (some 3) none,
     InRecord.mk (some "btc") (some "Bitcoin") (some 2) none none (some 9) none]
    "csv" "btc"
    (NormRow.mk "btc" "BTC" "Bitcoin" (some 1) none none "csv" (some 3))
    [NormRow.mk "btc" "BTC" "Bitcoin" (some 2) none none "csv" (some 9)]
    rfl (by decide)).1
  exact h

/-- C8 counterexample: resolution CAN overwrite populated provider IDs. With
a stored mapping (asset_uid "bitcoin", coingecko_id "bitcoin",
coinpaprika_id "btc-bitcoin", symbol "XYZ"), resolving a CSV record
(symbol "BTC", name "Bitcoin", no provider ID) misses strategies 1 and 2,
synthesizes asset_uid "bitcoin" from the name slug, and
`_create_mapping`'s `ON CONFLICT DO UPDATE` clause then sets both populated
provider-ID columns to the incoming `None`s. -/
theorem resolution_overwrites_populated_id_counterexample :
    ((resolve [Mapping.mk "bitcoin" (some "bitcoin") (some "btc-bitcoin") "XYZ" "Bitcoin"] []
        "csv" "BTC" "Bitcoin" none).db.map (fun m => (m.coingecko_id, m.coinpaprika_id))
      = [(none, none)])
    ∧ ([Mapping.mk "bitcoin" (some "bitcoin") (some "btc-bitcoin") "XYZ" "Bitcoin"].map
        (fun m => (m.coingecko_id, m.coinpaprika_id)) = [(some "bitcoin", some "btc-bitcoin")]) :=
  ⟨rfl, rfl⟩

/-- C8 (amended): when resolution succeeds via the symbol-lookup strategy,
the table changes only by the enrichment map: a truthy incoming provider ID
is back-filled onto the winning mapping's missing (falsy) column, an
already-populated provider ID is never overwritten by the enrichment, the
other provider's column is untouched when no ID for it arrived, and uid,
symbol and name are preserved. (The strategy-3 create path, by contrast, may
overwrite provider IDs on an `asset_uid` collision — see the
counterexample.) -/
theorem enrichment_additive (db : List Mapping) (source symbol name : String)
    (payload : Option Payload) (uid : String)
    (h1 : lookup_by_source_id db (extractIds source payload).1 (extractIds source payload).2
      = none)
    (h2 : lookup_by_symbol_name db symbol name = some uid) :
    (resolve db [] source symbol name payload).db
      = _update_mapping_source_id db uid (extractIds source payload).1
          (extractIds source payload).2
    ∧ ∀ m : Mapping,
        (enrichOne uid (extractIds source payload).1 (extractIds source payload).2 m).asset_uid
            = m.asset_uid
        ∧ (enrichOne uid (extractIds source payload).1 (extractIds source payload).2 m).symbol
            = m.symbol
        ∧ (enrichOne uid (extractIds source payload).1 (extractIds source payload).2 m).name
            = m.name
        ∧ (truthy m.coingecko_id →
            (enrichOne uid (extractIds source payload).1 (extractIds source payload).2
              m).coingecko_id = m.coingecko_id)
        ∧ (truthy m.coinpaprika_id →
            (enrichOne uid (extractIds source payload).1 (extractIds source payload).2
              m).coinpaprika_id = m.coinpaprika_id)
        ∧ (¬ truthy (extractIds source payload).1 →
            (enrichOne uid (extractIds source payload).1 (extractIds source payload).2
              m).coingecko_id = m.coingecko_id)
        ∧ (¬ truthy (extractIds source payload).2 →
            (enrichOne uid (extractIds source payload).1 (extractIds source payload).2
              m).coinpaprika_id = m.coinpaprika_id)
        ∧ (m.asset_uid = uid → truthy (extractIds source payload).1 →
            ¬ truthy m.coingecko_id →
            (enrichOne uid (extractIds source payload).1 (extractIds source payload).2
              m).coingecko_id = (extractIds source payload).1)
        ∧ (m.asset_uid = uid → truthy (extractIds source payload).2 →
            ¬ truthy m.coinpaprika_id →
            (enrichOne uid (extractIds source payload).1 (extractIds source payload).2
              m).coinpaprika_id = (extractIds source payload).2) := by
  constructor
  · show (resolve db [] source symbol name payload).db
      = _update_mapping_source_id db uid (extractIds source payload).1
          (extractIds source payload).2
    simp only [resolve, List.lookup_nil, h1, h2]
  · intro m
    unfold enrichOne
    by_cases hm : m.asset_uid = uid
    · rw [if_pos hm]
      refine ⟨rfl, rfl, rfl, ?_, ?_, ?_, ?_, ?_, ?_⟩
      · intro hpop
        simp [hpop]
      · intro hpop
        simp [hpop]
      · intro hin
        simp [hin]
      · intro hin
        simp [hin]
      · intro _ hin hpop
        simp [hin, hpop]
      · intro _ hin hpop
        simp [hin, hpop]
    · rw [if_neg hm]
      exact ⟨rfl, rfl, rfl, fun _ => rfl, fun _ => rfl, fun _ => rfl, fun _ => rfl,
        fun hm2 => absurd hm2 hm, fun hm2 => absurd hm2 hm⟩

/-- C8 witness: a mapping holding only the CoinGecko ID gains the
CoinPaprika ID btc-bitcoin via strategy-2 enrichment, its CoinGecko ID left
untouched. -/
theorem enrichment_additive_witness :
    lookup_by_source_id [Mapping.mk "bitcoin" (some "bitcoin") none "BTC" "Bitcoin"]
        none (some "btc-bitcoin") = none
    ∧ lookup_by_symbol_name [Mapping.mk "bitcoin" (some "bitcoin") none "BTC" "Bitcoin"]
        "BTC" "Bitcoin" = some "bitcoin"
    ∧ (resolve [Mapping.mk "bitcoin" (some "bitcoin") none "BTC" "Bitcoin"] [] "coinpaprika"
        "BTC" "Bitcoin" (some (Payload.mk (some "btc-bitcoin")))).db
      = _update_mapping_source_id [Mapping.mk "bitcoin" (some "bitcoin") none "BTC" "Bitcoin"]
          "bitcoin" none (some "btc-bitcoin")
    ∧ (resolve [Mapping.mk "bitcoin" (some "bitcoin") none "BTC" "Bitcoin"] [] "coinpaprika"
        "BTC" "Bitcoin" (some (Payload.mk (some "btc-bitcoin")))).db
      = [Mapping.mk "bitcoin" (some "bitcoin") (some "btc-bitcoin") "BTC" "Bitcoin"] :=
  ⟨rfl, rfl,
    (enrichment_additive [Mapping.mk "bitcoin" (some "bitcoin") none "BTC" "Bitcoin"]
      "coinpaprika" "BTC" "Bitcoin" (some (Payload.mk (some "btc-bitcoin"))) "bitcoin"
      rfl rfl).1,
    rfl⟩

/-- A failed strategy-1 lookup with a truthy CoinGecko ID means no mapping
carries that ID. -/
theorem lookup_by_source_id_none_cg (db : List Mapping) (cg cp : Option String)
    (h : lookup_by_source_id db cg cp = none) (hg : truthy cg) :
    ∀ m ∈ db, m.coingecko_id ≠ cg := by
  intro m hm hcon
  unfold lookup_by_source_id at h
  rw [if_pos hg] at h
  cases hfind : db.find? (fun m2 => m2.coingecko_id = cg) with
  | some m2 => rw [hfind] at h; simp at h
  | none =>
    rw [List.find?_eq_none] at hfind
    exact hfind m hm (by simpa using hcon)

/-- A failed strategy-1 lookup with a truthy CoinPaprika ID means no mapping
carries that ID. -/
theorem lookup_by_source_id_none_cp (db : List Mapping) (cg cp : Option String)
    (h : lookup_by_source_id db cg cp = none) (hp : truthy cp) :
    ∀ m ∈ db, m.coinpaprika_id ≠ cp := by
  intro m hm hcon
  unfold lookup_by_source_id at h
  cases hcg : (if truthy cg then db.find? (fun m2 => m2.coingecko_id = cg) else none) with
  | some m2 => rw [hcg] at h; simp at h
  | none =>
    rw [hcg] at h
    rw [if_pos hp] at h
    cases hfind : db.find? (fun m2 => m2.coinpaprika_id = cp) with
    | some m2 => rw [hfind] at h; simp at h
    | none =>
      rw [List.find?_eq_none] at hfind
      exact hfind m hm (by simpa using hcon)

/-- A successful strategy-1 lookup exhibits a mapping matching one of the two
truthy incoming IDs. -/
theorem lookup_by_source_id_some (db : List Mapping) (cg cp : Option String) (u : String)
    (h : lookup_by_source_id db cg cp = some u) :
    ∃ m ∈ db, m.asset_uid = u ∧
      ((truthy cg ∧ m.coingecko_id = cg) ∨ (truthy cp ∧ m.coinpaprika_id = cp)) := by
  unfold lookup_by_source_id at h
  by_cases htg : truthy cg
  · rw [if_pos htg] at h
    cases hfind : db.find? (fun m2 => m2.coingecko_id = cg) with
    | some m2 =>
      rw [hfind] at h
      exact ⟨m2, List.mem_of_find?_eq_some hfind, Option.some.inj h,
        Or.inl ⟨htg, by simpa using List.find?_some hfind⟩⟩
    | none =>
      rw [hfind] at h
      by_cases htp : truthy cp
      · rw [if_pos htp] at h
        cases hfind2 : db.find? (fun m2 => m2.coinpaprika_id = cp) with
        | some m2 =>
          rw [hfind2] at h
          exact ⟨m2, List.mem_of_find?_eq_some hfind2, Option.some.inj h,
            Or.inr ⟨htp, by simpa using List.find?_some hfind2⟩⟩
        | none => rw [hfind2] at h; simp at h
      · rw [if_neg htp] at h; simp at h
  · rw [if_neg htg] at h
    by_cases htp : truthy cp
    · rw [if_pos htp] at h
      cases hfind2 : db.find? (fun m2 => m2.coinpaprika_id = cp) with
      | some m2 =>
        rw [hfind2] at h
        exact ⟨m2, List.mem_of_find?_eq_some hfind2, Option.some.inj h,
          Or.inr ⟨htp, by simpa using List.find?_some hfind2⟩⟩
      | none => rw [hfind2] at h; simp at h
    · rw [if_neg htp] at h; simp at h

/-- After enrichment, any mapping carrying a CoinGecko ID absent from the
original table must be the enriched (uid-targeted) row. -/
theorem update_target_cg (db : List Mapping) (uid : String) (cg cp : Option String)
    (hnone : ∀ m ∈ db, m.coingecko_id ≠ cg) :
    ∀ m2 ∈ _update_mapping_source_id db uid cg cp, m2.coingecko_id = cg →
      m2.asset_uid = uid := by
  intro m2 hm2 hcg2
  unfold _update_mapping_source_id at hm2
  cases hguard : db.find? (fun m => m.asset_uid = uid) with
  | none =>
    rw [hguard] at hm2
    exact absurd hcg2 (hnone m2 hm2)
  | some _ =>
    rw [hguard] at hm2
    rcases List.mem_map.1 hm2 with ⟨m, hm, rfl⟩
    unfold enrichOne at hcg2 ⊢
    by_cases hmu : m.asset_uid = uid
    · rw [if_pos hmu]
      exact hmu
    · rw [if_neg hmu] at hcg2
      exact absurd hcg2 (hnone m hm)

/-- After enrichment, any mapping carrying a CoinPaprika ID absent from the
original table must be the enriched (uid-targeted) row. -/
theorem update_target_cp (db : List Mapping) (uid : String) (cg cp : Option String)
    (hnone : ∀ m ∈ db, m.coinpaprika_id ≠ cp) :
    ∀ m2 ∈ _update_mapping_source_id db uid cg cp, m2.coinpaprika_id = cp →
      m2.asset_uid = uid := by
  intro m2 hm2 hcp2
  unfold _update_mapping_source_id at hm2
  cases hguard : db.find? (fun m => m.asset_uid = uid) with
  | none =>
    rw [hguard] at hm2
    exact absurd hcp2 (hnone m2 hm2)
  | some _ =>
    rw [hguard] at hm2
    rcases List.mem_map.1 hm2 with ⟨m, hm, rfl⟩
    unfold enrichOne at hcp2 ⊢
    by_cases hmu : m.asset_uid = uid
    · rw [if_pos hmu]
      exact hmu
    · rw [if_neg hmu] at hcp2
      exact absurd hcp2 (hnone m hm)

/-- After mapping creation, any row carrying a CoinGecko ID absent from the
original table is the created/conflicted (uid-targeted) row. -/
theorem create_target_cg (db : List Mapping) (uid symbol name : String) (cg cp : Option String)
    (hnone : ∀ m ∈ db, m.coingecko_id ≠ cg) :
    ∀ m2 ∈ _create_mapping db uid symbol name cg cp, m2.coingecko_id = cg →
      m2.asset_uid = uid := by
  intro m2 hm2 hcg2
  unfold _create_mapping at hm2
  split at hm2
  · rcases List.mem_map.1 hm2 with ⟨m, hm, rfl⟩
    by_cases hmu : m.asset_uid = uid
    · rw [if_pos hmu]
      exact hmu
    · rw [if_neg hmu] at hcg2 ⊢
      exact absurd hcg2 (hnone m hm)
  · rcases List.mem_append.1 hm2 with h | h
    · exact absurd hcg2 (hnone m2 h)
    · simp only [List.mem_singleton] at h
      subst h
      rfl

/-- After mapping creation, any row carrying a CoinPaprika ID absent from the
original table is the created/conflicted (uid-targeted) row. -/
theorem create_target_cp (db : List Mapping) (uid symbol name : String) (cg cp : Option String)
    (hnone : ∀ m ∈ db, m.coinpaprika_id ≠ cp) :
    ∀ m2 ∈ _create_mapping db uid symbol name cg cp, m2.coinpaprika_id = cp →
      m2.asset_uid = uid := by
  intro m2 hm2 hcp2
  unfold _create_mapping at hm2
  split at hm2
  · rcases List.mem_map.1 hm2 with ⟨m, hm, rfl⟩
    by_cases hmu : m.asset_uid = uid
    · rw [if_pos hmu]
      exact hmu
    · rw [if_neg hmu] at hcp2 ⊢
      exact absurd hcp2 (hnone m hm)
  · rcases List.mem_append.1 hm2 with h | h
    · exact absurd hcp2 (hnone m2 h)
    · simp only [List.mem_singleton] at h
      subst h
      rfl

/-- Searching a mapped list is mapping the search. -/
theorem find?_map_local {α β : Type} (l : List α) (f : α → β) (p : β → Bool) :
    (l.map f).find? p = (l.find? (fun a => p (f a))).map f := by
  induction l with
  | nil => rfl
  | cons a as ih =>
    cases hp : p (f a) with
    | true =>
      rw [List.map_cons, List.find?_cons_of_pos _ hp,
        List.find?_cons_of_pos as (show (fun a2 => p (f a2)) a = true from hp)]
      rfl
    | false =>
      rw [List.map_cons, List.find?_cons_of_neg _ (by simp [hp]),
        List.find?_cons_of_neg as
          (show ¬ (fun a2 => p (f a2)) a = true by simp [hp]), ih]

/-- The symbol/name lookup only inspects `asset_uid`, `symbol` and `name`, so
a table transformation preserving those three columns preserves its
result. -/
theorem lookup_by_symbol_name_map (db : List Mapping) (f : Mapping → Mapping)
    (huid : ∀ m, (f m).asset_uid = m.asset_uid) (hsym : ∀ m, (f m).symbol = m.symbol)
    (hname : ∀ m, (f m).name = m.name) (symbol name : String) :
    lookup_by_symbol_name (db.map f) symbol name = lookup_by_symbol_name db symbol name := by
  simp only [lookup_by_symbol_name]
  have hfilter : (db.map f).filter (fun m => m.symbol = pyStrip (pyUpper symbol))
      = (db.filter (fun m => m.symbol = pyStrip (pyUpper symbol))).map f := by
    induction db with
    | nil => rfl
    | cons m ms ih =>
      rw [List.map_cons, List.filter_cons, List.filter_cons]
      by_cases hs : m.symbol = pyStrip (pyUpper symbol)
      · rw [if_pos (by simpa [hsym m] using hs), if_pos (by simpa using hs), List.map_cons, ih]
      · rw [if_neg (by simpa [hsym m] using hs), if_neg (by simpa using hs), ih]
  rw [hfilter]
  cases hflt : db.filter (fun m => m.symbol = pyStrip (pyUpper symbol)) with
  | nil => rfl
  | cons m ms =>
    cases ms with
    | nil =>
      show some ((f m).asset_uid) = some m.asset_uid
      rw [huid m]
    | cons m2 ms2 =>
      show (match ((m :: m2 :: ms2).map f).find?
          (fun mm => normalize_name mm.name = normalize_name name) with
        | some mm => some mm.asset_uid
        | none => some ((f m).asset_uid))
        = (match (m :: m2 :: ms2).find?
            (fun mm => normalize_name mm.name = normalize_name name) with
          | some mm => some mm.asset_uid
          | none => some m.asset_uid)
      rw [find?_map_local, find?_congr_local (m :: m2 :: ms2)
        (fun a => decide (normalize_name (f a).name = normalize_name name))
        (fun mm => normalize_name mm.name = normalize_name name) (by
          intro a _
          show decide (normalize_name (f a).name = normalize_name name)
            = decide (normalize_name a.name = normalize_name name)
          rw [hname a])]
      cases hfind : (m :: m2 :: ms2).find?
          (fun mm => normalize_name mm.name = normalize_name name) with
      | some mm =>
        show some ((f mm).asset_uid) = some mm.asset_uid
        rw [huid mm]
      | none =>
        show some ((f m).asset_uid) = some m.asset_uid
        rw [huid m]

/-- A failed symbol lookup means no mapping carries the normalized symbol. -/
theorem lookup_by_symbol_name_none (db : List Mapping) (symbol name : String)
    (h : lookup_by_symbol_name db symbol name = none) :
    db.filter (fun m => m.symbol = pyStrip (pyUpper symbol)) = [] := by
  simp only [lookup_by_symbol_name] at h
  cases hflt : db.filter (fun m => m.symbol = pyStrip (pyUpper symbol)) with
  | nil => rfl
  | cons m ms =>
    rw [hflt] at h
    cases ms with
    | nil => simp at h
    | cons m2 ms2 =>
      cases hfind : (m :: m2 :: ms2).find?
          (fun mm => normalize_name mm.name = normalize_name name) with
      | some mm => rw [hfind] at h; simp at h
      | none => rw [hfind] at h; simp at h

/-- Symbol lookup on a table extended by one row, when the original table has
no row with the normalized symbol. -/
theorem lookup_by_symbol_name_append_one (db : List Mapping) (symbol name : String)
    (m0 : Mapping) (h : db.filter (fun m => m.symbol = pyStrip (pyUpper symbol)) = []) :
    lookup_by_symbol_name (db ++ [m0]) symbol name
      = if m0.symbol = pyStrip (pyUpper symbol) then some m0.asset_uid else none := by
  simp only [lookup_by_symbol_name]
  rw [List.filter_append, h, List.nil_append]
  by_cases hs : m0.symbol = pyStrip (pyUpper symbol)
  · rw [if_pos hs]
    rw [show List.filter (fun m => decide (m.symbol = pyStrip (pyUpper symbol))) [m0] = [m0] by
      simp [List.filter_cons, hs]]
  · rw [if_neg hs]
    rw [show List.filter (fun m => decide (m.symbol = pyStrip (pyUpper symbol))) [m0] = [] by
      simp [List.filter_cons, hs]]

/-- C9: resolution is stable — resolving the same (source, symbol, name,
payload) twice returns the same `asset_uid` even with the in-memory cache
cleared between the calls (both calls run with an empty cache): whatever the
first call wrote to the mapping table (enrichment or a new mapping row) is
found again by the table lookups of the second call, or the second call
deterministically regenerates the same synthesized uid. -/
theorem resolve_stable (db : List Mapping) (source symbol name : String)
    (payload : Option Payload) :
    (resolve (resolve db [] source symbol name payload).db [] source symbol name
        payload).asset_uid
      = (resolve db [] source symbol name payload).asset_uid := by
  rcases hee : extractIds source payload with ⟨cg, cp⟩
  cases h1 : lookup_by_source_id db cg cp with
  | some uid =>
    have hdb : (resolve db [] source symbol name payload).db = db := by
      simp [resolve, List.lookup_nil, hee, h1]
    rw [hdb]
  | none =>
    cases h2 : lookup_by_symbol_name db symbol name with
    | some uid =>
      have hdb : (resolve db [] source symbol name payload).db
          = _update_mapping_source_id db uid cg cp := by
        simp [resolve, List.lookup_nil, hee, h1, h2]
      have huid : (resolve db [] source symbol name payload).asset_uid = uid := by
        simp [resolve, List.lookup_nil, hee, h1, h2]
      rw [hdb, huid]
      cases h1' : lookup_by_source_id (_update_mapping_source_id db uid cg cp) cg cp with
      | some u2 =>
        have hu2 : u2 = uid := by
          rcases lookup_by_source_id_some _ _ _ _ h1' with ⟨m2, hm2, hmu, hcase⟩
          rcases hcase with ⟨htg, hcg⟩ | ⟨htp, hcp⟩
          · exact hmu ▸ update_target_cg db uid cg cp
              (lookup_by_source_id_none_cg db cg cp h1 htg) m2 hm2 hcg
          · exact hmu ▸ update_target_cp db uid cg cp
              (lookup_by_source_id_none_cp db cg cp h1 htp) m2 hm2 hcp
        simp [resolve, List.lookup_nil, hee, h1', hu2]
      | none =>
        have e1 : ∀ m : Mapping, (enrichOne uid cg cp m).asset_uid = m.asset_uid := by
          intro m
          unfold enrichOne
          by_cases hm : m.asset_uid = uid
          · rw [if_pos hm]
          · rw [if_neg hm]
        have e2 : ∀ m : Mapping, (enrichOne uid cg cp m).symbol = m.symbol := by
          intro m
          unfold enrichOne
          by_cases hm : m.asset_uid = uid
          · rw [if_pos hm]
          · rw [if_neg hm]
        have e3 : ∀ m : Mapping, (enrichOne uid cg cp m).name = m.name := by
          intro m
          unfold enrichOne
          by_cases hm : m.asset_uid = uid
          · rw [if_pos hm]
          · rw [if_neg hm]
        have h2' : lookup_by_symbol_name (_update_mapping_source_id db uid cg cp) symbol name
            = some uid := by
          unfold _update_mapping_source_id
          cases hguard : db.find? (fun m => m.asset_uid = uid) with
          | none => exact h2
          | some _ =>
            exact (lookup_by_symbol_name_map db (enrichOne uid cg cp) e1 e2 e3
              symbol name).trans h2
        simp [resolve, List.lookup_nil, hee, h1', h2']
    | none =>
      have hdb : (resolve db [] source symbol name payload).db
          = _create_mapping db (generate_canonical_id cg cp symbol name) symbol name cg cp := by
        simp [resolve, List.lookup_nil, hee, h1, h2]
      have huid : (resolve db [] source symbol name payload).asset_uid
          = generate_canonical_id cg cp symbol name := by
        simp [resolve, List.lookup_nil, hee, h1, h2]
      rw [hdb, huid]
      cases h1' : lookup_by_source_id
          (_create_mapping db (generate_canonical_id cg cp symbol name) symbol name cg cp)
          cg cp with
      | some u2 =>
        have hu2 : u2 = generate_canonical_id cg cp symbol name := by
          rcases lookup_by_source_id_some _ _ _ _ h1' with ⟨m2, hm2, hmu, hcase⟩
          rcases hcase with ⟨htg, hcg⟩ | ⟨htp, hcp⟩
          · exact hmu ▸ create_target_cg db (generate_canonical_id cg cp symbol name)
              symbol name cg cp (lookup_by_source_id_none_cg db cg cp h1 htg) m2 hm2 hcg
          · exact hmu ▸ create_target_cp db (generate_canonical_id cg cp symbol name)
              symbol name cg cp (lookup_by_source_id_none_cp db cg cp h1 htp) m2 hm2 hcp
        simp [resolve, List.lookup_nil, hee, h1', hu2]
      | none =>
        cases h2' : lookup_by_symbol_name
            (_create_mapping db (generate_canonical_id cg cp symbol name) symbol name cg cp)
            symbol name with
        | some u3 =>
          have hu3 : u3 = generate_canonical_id cg cp symbol name := by
            unfold _create_mapping at h2'
            by_cases hany : db.any (fun m => m.asset_uid = generate_canonical_id cg cp
              symbol name)
            · rw [if_pos hany] at h2'
              have e1 : ∀ m : Mapping,
                  ((fun m => if m.asset_uid = generate_canonical_id cg cp symbol name then
                    { m with coingecko_id := cg, coinpaprika_id := cp } else m) m).asset_uid
                    = m.asset_uid := by
                intro m
                by_cases hm : m.asset_uid = generate_canonical_id cg cp symbol name
                · simp only [hm, if_true]
                · simp only [hm, if_false]
              have e2 : ∀ m : Mapping,
                  ((fun m => if m.asset_uid = generate_canonical_id cg cp symbol name then
                    { m with coingecko_id := cg, coinpaprika_id := cp } else m) m).symbol
                    = m.symbol := by
                intro m
                by_cases hm : m.asset_uid = generate_canonical_id cg cp symbol name
                · simp only [hm, if_true]
                · simp only [hm, if_false]
              have e3 : ∀ m : Mapping,
                  ((fun m => if m.asset_uid = generate_canonical_id cg cp symbol name then
                    { m with coingecko_id := cg, coinpaprika_id := cp } else m) m).name
                    = m.name := by
                intro m
                by_cases hm : m.asset_uid = generate_canonical_id cg cp symbol name
                · simp only [hm, if_true]
                · simp only [hm, if_false]
              rw [lookup_by_symbol_name_map db _ e1 e2 e3 symbol name, h2] at h2'
              simp at h2'
            · rw [if_neg hany] at h2'
              rw [lookup_by_symbol_name_append_one db symbol name _
                (lookup_by_symbol_name_none db symbol name h2)] at h2'
              by_cases hs : pyUpper symbol = pyStrip (pyUpper symbol)
              · rw [if_pos (show (Mapping.mk (generate_canonical_id cg cp symbol name) cg cp
                  (pyUpper symbol) name).symbol = pyStrip (pyUpper symbol) from hs)] at h2'
                exact (Option.some.inj h2').symm
              · rw [if_neg (show ¬ (Mapping.mk (generate_canonical_id cg cp symbol name) cg cp
                  (pyUpper symbol) name).symbol = pyStrip (pyUpper symbol) from hs)] at h2'
                simp at h2'
          simp [resolve, List.lookup_nil, hee, h1', h2', hu3]
        | none =>
          simp [resolve, List.lookup_nil, hee, h1', h2']
